import Mathlib

/-!
Shallow embedding of the RAG repository (document_processor.py, vector_store.py,
rag_system.py, config.py, core/config.py, core/rag_agent.py) together with
theorems settling the frozen claims about it.

Python dicts with string keys are embedded as association lists with unique
keys (insertion order preserved, as in Python); Python values appearing in
chunk metadata are embedded as `PyVal`.  External library behaviour that the
code leans on (ChromaDB collection add/query, the langchain
RecursiveCharacterTextSplitter) is embedded from the library's published
semantics where a claim depends on it; nearest-neighbour ranking and float
distances are abstracted (no claim depends on them).
-/

/-- Embedding of the Python values that can appear in chunk metadata.
`vstr`, `vint`, `vfloat`, `vbool` are the primitive types accepted by
ChromaDB (`isinstance(value, (str, int, float, bool))` in
`VectorStore.add_documents`); `vnone` and `vlist` stand for the
non-primitive values (float payloads are carried as opaque text, nothing in
the claims computes with them). -/
inductive PyVal where
  | vstr (s : String)
  | vint (n : Int)
  | vfloat (r : String)
  | vbool (b : Bool)
  | vnone
  | vlist (xs : List String)
deriving DecidableEq, Repr

/-- The `isinstance(value, (str, int, float, bool))` test of
`VectorStore.add_documents`. -/
def PyVal.isPrimitive : PyVal → Bool
  | .vstr _ => true
  | .vint _ => true
  | .vfloat _ => true
  | .vbool _ => true
  | .vnone => false
  | .vlist _ => false

/-- Python `str.join`: `sep.join(docs)`. -/
def pyJoin (sep : String) : List String → String
  | [] => ""
  | [x] => x
  | x :: y :: rest => x ++ sep ++ pyJoin sep (y :: rest)

/-- Python `str()` rendering of a `PyVal` (string values render as
themselves, which is all the pipeline metadata uses; the quoting of list
elements is abbreviated since no claim inspects the rendered text). -/
def PyVal.pyStr : PyVal → String
  | .vstr s => s
  | .vint n => toString n
  | .vfloat r => r
  | .vbool b => if b then "True" else "False"
  | .vnone => "None"
  | .vlist xs => "[" ++ pyJoin ", " xs ++ "]"

/-- Python `str.strip()` with no arguments: drop leading and trailing
whitespace. -/
def pyStrip (s : String) : String :=
  String.mk (((s.toList.dropWhile Char.isWhitespace).reverse.dropWhile
    Char.isWhitespace).reverse)

/-- A Python dict with string keys, in insertion order. -/
abbrev PyDict := List (String × PyVal)

/-- Python `d[k] = v` / one step of `dict.update`: overwrite an existing key
in place, append a new key at the end. -/
def dictSet (d : PyDict) (k : String) (v : PyVal) : PyDict :=
  if (d.map Prod.fst).contains k then
    d.map (fun kv => if kv.1 == k then (k, v) else kv)
  else
    d ++ [(k, v)]

/-- Python `d.get(k)` / `d[k]` lookup. -/
def dictGet (d : PyDict) (k : String) : Option PyVal :=
  (d.find? (fun kv => kv.1 == k)).map Prod.snd

/-- Python `d.update(us)` (applied to a fresh copy in the pipeline). -/
def dictUpdate (d : PyDict) (us : List (String × PyVal)) : PyDict :=
  us.foldl (fun acc kv => dictSet acc kv.1 kv.2) d

/-- The key `k` is present in the dict. -/
def hasKey (d : PyDict) (k : String) : Prop := (dictGet d k).isSome

instance (d : PyDict) (k : String) : Decidable (hasKey d k) := by
  unfold hasKey; infer_instance

/-- Python f-string interpolation of `metadata[k]` (a `KeyError` cannot occur
in the pipeline, which always sets the keys it reads; the `none` branch is
unreachable there). -/
def fstrOf (d : PyDict) (k : String) : String :=
  match dictGet d k with
  | some v => v.pyStr
  | none => ""

section DictLemmas

theorem find?_map_replace_of_contains (d : PyDict) (k : String) (v : PyVal)
    (h : (d.map Prod.fst).contains k = true) :
    (d.map (fun kv => if kv.1 == k then (k, v) else kv)).find?
      (fun kv => kv.1 == k) = some (k, v) := by
  induction d with
  | nil => simp [List.contains] at h
  | cons a d ih =>
    cases hk : a.1 == k with
    | true =>
      rw [List.map_cons, if_pos hk]
      simp only [List.find?_cons, beq_self_eq_true]
    | false =>
      have h' : (d.map Prod.fst).contains k = true := by
        simp only [List.map_cons, List.contains_cons, Bool.or_eq_true,
          beq_iff_eq] at h
        rcases h with h | h
        · exact absurd (beq_iff_eq.mpr h.symm) (by simp [hk])
        · exact h
      rw [List.map_cons, if_neg (by simp [hk])]
      simp only [List.find?_cons, hk]
      exact ih h'

theorem find?_map_replace_ne (d : PyDict) (k k' : String) (v : PyVal)
    (hne : k' ≠ k) :
    (d.map (fun kv => if kv.1 == k then (k, v) else kv)).find?
      (fun kv => kv.1 == k') = d.find? (fun kv => kv.1 == k') := by
  induction d with
  | nil => rfl
  | cons a d ih =>
    cases hk : a.1 == k with
    | true =>
      have ha : (a.1 == k') = false := by
        have := beq_iff_eq.mp hk
        simp [this, Ne.symm hne]
      have hkk' : ((k : String) == k') = false := by
        simp [Ne.symm hne]
      rw [List.map_cons, if_pos hk]
      simp only [List.find?_cons, ha, hkk']
      exact ih
    | false =>
      rw [List.map_cons, if_neg (by simp [hk])]
      cases ha : a.1 == k' with
      | true => simp only [List.find?_cons, ha]
      | false =>
        simp only [List.find?_cons, ha]
        exact ih

theorem find?_eq_none_of_not_contains (d : PyDict) (k : String)
    (h : (d.map Prod.fst).contains k = false) :
    d.find? (fun kv => kv.1 == k) = none := by
  induction d with
  | nil => rfl
  | cons a d ih =>
    simp only [List.map_cons, List.contains_cons, Bool.or_eq_false_iff] at h
    have ha : (a.1 == k) = false :=
      beq_eq_false_iff_ne.mpr (Ne.symm (beq_eq_false_iff_ne.mp h.1))
    simp only [List.find?_cons, ha]
    exact ih h.2

theorem dictGet_dictSet_self (d : PyDict) (k : String) (v : PyVal) :
    dictGet (dictSet d k v) k = some v := by
  unfold dictSet dictGet
  by_cases h : (d.map Prod.fst).contains k
  · rw [if_pos h, find?_map_replace_of_contains d k v h]
    rfl
  · rw [if_neg h, List.find?_append,
      find?_eq_none_of_not_contains d k (Bool.of_not_eq_true h)]
    simp [List.find?_cons, Option.orElse]

theorem dictGet_dictSet_ne (d : PyDict) (k k' : String) (v : PyVal)
    (hne : k' ≠ k) : dictGet (dictSet d k v) k' = dictGet d k' := by
  unfold dictSet dictGet
  by_cases h : (d.map Prod.fst).contains k
  · rw [if_pos h, find?_map_replace_ne d k k' v hne]
  · have hkk' : ((k : String) == k') = false := by
      simp [Ne.symm hne]
    rw [if_neg h, List.find?_append]
    simp only [List.find?_cons, hkk', List.find?_nil]
    cases hd : d.find? (fun kv => kv.1 == k') with
    | some w => simp [Option.orElse]
    | none => simp [Option.orElse]

theorem hasKey_dictSet_of (d : PyDict) (k k' : String) (v : PyVal)
    (h : hasKey d k') : hasKey (dictSet d k v) k' := by
  by_cases hkk : k' = k
  · subst hkk
    unfold hasKey
    rw [dictGet_dictSet_self]
    rfl
  · unfold hasKey at *
    rw [dictGet_dictSet_ne d k k' v hkk]
    exact h

theorem hasKey_dictSet_self (d : PyDict) (k : String) (v : PyVal) :
    hasKey (dictSet d k v) k := by
  unfold hasKey
  rw [dictGet_dictSet_self]
  rfl

theorem hasKey_dictUpdate_of (d : PyDict) (us : List (String × PyVal))
    (k : String) (h : hasKey d k) : hasKey (dictUpdate d us) k := by
  induction us generalizing d with
  | nil => exact h
  | cons u us ih => exact ih _ (hasKey_dictSet_of d u.1 k u.2 h)

theorem hasKey_dictUpdate_mem (d : PyDict) (us : List (String × PyVal))
    (u : String × PyVal) (h : u ∈ us) : hasKey (dictUpdate d us) u.1 := by
  induction us generalizing d with
  | nil => cases h
  | cons w us ih =>
    rcases List.mem_cons.mp h with h1 | h1
    · subst h1
      exact hasKey_dictUpdate_of _ us u.1 (hasKey_dictSet_self d u.1 u.2)
    · exact ih _ h1

end DictLemmas

/-!
Embedding of langchain's `RecursiveCharacterTextSplitter` as configured by
`DocumentProcessor.__init__` (`chunk_size=1000`, `chunk_overlap=200`,
`length_function=len`, separators `["\n\n", "\n", ". ", " ", ""]`, and the
class defaults `keep_separator=True`, `is_separator_regex=False`,
`strip_whitespace=True`).  Since `is_separator_regex` is false the regex
calls in the library reduce to literal-substring operations.
-/

/-- Strip `sep` from the front of `l` when it is a prefix, returning the
remainder. -/
def dropPrefixChars? : List Char → List Char → Option (List Char)
  | [], l => some l
  | _ :: _, [] => none
  | s :: ss, c :: cs => if c = s then dropPrefixChars? ss cs else none

/-- Left-to-right non-overlapping split of a character list on a non-empty
separator, as Python `str.split(sep)` does it; the fuel argument (the text
length at the initial call) only serves structural recursion — both
recursive calls strictly shorten the text. -/
def splitOnCharsF (sep : List Char) : Nat → List Char → List Char →
    List (List Char)
  | _, [], acc => [acc.reverse]
  | 0, l, acc => [acc.reverse ++ l]
  | Nat.succ n, c :: cs, acc =>
    match dropPrefixChars? sep (c :: cs) with
    | some rest => acc.reverse :: splitOnCharsF sep n rest []
    | none => splitOnCharsF sep n cs (c :: acc)

/-- Python `text.split(sep)` for a non-empty literal separator. -/
def strSplitOn (text sep : String) : List String :=
  (splitOnCharsF sep.toList text.toList.length text.toList []).map
    (fun l => String.mk l)

/-- The split of `_split_text_with_regex` with `keep_separator=True`: split
on the literal separator and re-attach each separator occurrence to the
front of the piece that follows it; the empty separator turns the text into
its list of characters; empty pieces are filtered out at the end. -/
def splitWithKeepSep (sep text : String) : List String :=
  let splits :=
    if sep = "" then text.toList.map (fun c => String.mk [c])
    else
      match strSplitOn text sep with
      | [] => []
      | p :: ps => p :: ps.map (fun q => sep ++ q)
  splits.filter (fun s => s != "")

/-- Python `re.search(re.escape(sep), text)` for a non-empty literal `sep`:
the separator occurs somewhere in the text. -/
def occursIn (sep text : String) : Bool :=
  decide (1 < (strSplitOn text sep).length)

/-- The separator-selection loop at the top of `_split_text`: starting from
the default `separators[-1]`, take the first separator that is empty or
occurs in the text; the remaining suffix becomes `new_separators`. -/
def selectSepGo (text deflt : String) : List String → String × List String
  | [] => (deflt, [])
  | s :: rest =>
    if s = "" then ("", [])
    else if occursIn s text then (s, rest)
    else selectSepGo text deflt rest

def selectSep (text : String) (seps : List String) : String × List String :=
  selectSepGo text (seps.getLastD "") seps

/-- langchain `_join_docs`: join the pieces, strip whitespace
(`strip_whitespace=True`), and drop the result when it is empty. -/
def joinDocs (sep : String) (docs : List String) : Option String :=
  let text := pyStrip (pyJoin sep docs)
  if text = "" then none else some text

/-- The inner `while` loop of `_merge_splits` that pops pieces from the
front of `current_doc` until the running total fits.  Python would fault on
an empty `current_doc`; that state is unreachable because the loop guard is
false once `total = 0`, so the `[]` case simply stops. -/
def popWhile (cs co : Nat) (sepLen dLen : Int) :
    List String → Int → List String × Int
  | [], total => ([], total)
  | c :: rest, total =>
    if total > (co : Int) ∨
        (total + dLen + (if (c :: rest).length > 0 then sepLen else 0) >
            (cs : Int) ∧
          total > 0) then
      popWhile cs co sepLen dLen rest
        (total - ((c.length : Int) + if rest.length > 0 then sepLen else 0))
    else (c :: rest, total)

/-- The main loop of langchain `_merge_splits`: greedily pack pieces into
`current_doc` while the total length fits in `chunk_size`; when the next
piece would overflow, emit the joined `current_doc` and pop from its front
down to the overlap before continuing. -/
def mergeLoop (cs co : Nat) (sep : String) :
    List String → List String → Int → List String → List String
  | [], curr, _total, docs => docs ++ (joinDocs sep curr).toList
  | d :: ds, curr, total, docs =>
    let len : Int := d.length
    let sepLen : Int := sep.length
    if total + len + (if curr.length > 0 then sepLen else 0) > (cs : Int) then
      if curr.length > 0 then
        let docs1 := docs ++ (joinDocs sep curr).toList
        let pr := popWhile cs co sepLen len curr total
        mergeLoop cs co sep ds (pr.1 ++ [d])
          (pr.2 + len + (if pr.1.length > 0 then sepLen else 0)) docs1
      else
        mergeLoop cs co sep ds (curr ++ [d])
          (total + len + (if curr.length > 0 then sepLen else 0)) docs
    else
      mergeLoop cs co sep ds (curr ++ [d])
        (total + len + (if curr.length > 0 then sepLen else 0)) docs

def mergeSplits (cs co : Nat) (sep : String) (splits : List String) :
    List String :=
  mergeLoop cs co sep splits [] 0 []

/-- The per-piece loop of `_split_text`: pieces shorter than `chunk_size`
are collected and merged; an oversized piece first flushes the collected
good pieces, then is either emitted as-is (no separators left) or split
recursively — `handleBad` closes over that recursive call.  Because
`keep_separator=True`, the merge separator is always the empty string. -/
def goSplits (cs co : Nat) (handleBad : String → List String) :
    List String → List String → List String
  | [], good => if good.isEmpty then [] else mergeSplits cs co "" good
  | s :: ss, good =>
    if s.length < cs then goSplits cs co handleBad ss (good ++ [s])
    else
      (if good.isEmpty then [] else mergeSplits cs co "" good)
        ++ handleBad s
        ++ goSplits cs co handleBad ss []

/-- langchain `RecursiveCharacterTextSplitter._split_text`.  The recursion
always descends to a strict suffix of the separator list, so a fuel of
`seps.length` (supplied by `split_text`) is enough; the claims are proved
for every fuel. -/
def splitTextAux (cs co : Nat) : Nat → String → List String → List String
  | 0, _, _ => []
  | Nat.succ n, text, seps =>
    let sp := selectSep text seps
    goSplits cs co
      (fun s => if sp.2.isEmpty then [s] else splitTextAux cs co n s sp.2)
      (splitWithKeepSep sp.1 text) []

/-- The separator list fixed in `DocumentProcessor.__init__`. -/
def defaultSeparators : List String := ["\n\n", "\n", ". ", " ", ""]

/-- `RecursiveCharacterTextSplitter.split_text` with the processor's
separators. -/
def split_text (cs co : Nat) (text : String) : List String :=
  splitTextAux cs co defaultSeparators.length text defaultSeparators

/-!
Embedding of `config.py`, `document_processor.py` and the `Document` schema
(langchain `Document` is a plain record of `page_content` and `metadata`).
-/

/-- langchain `Document`: the unit stored in the vector store. -/
structure Document where
  page_content : String
  metadata : PyDict
deriving DecidableEq, Repr

/- The constants of `config.py` used by the claims. -/
namespace Config

def CHUNK_SIZE : Nat := 1000

def CHUNK_OVERLAP : Nat := 200

def TOP_K_RESULTS : Nat := 5

end Config

/-- `DocumentProcessor.__init__` keeps only the two numeric parameters (the
splitter it builds is `split_text` above); the structure defaults are the
constructor defaults. -/
structure DocumentProcessor where
  chunk_size : Nat := 1000
  chunk_overlap : Nat := 200
deriving DecidableEq, Repr

/-- One section of a paper: free text plus dicts of tables and images
(id-to-content, in insertion order). -/
structure Section where
  text : String
  tables : List (String × String)
  images : List (String × String)
deriving DecidableEq, Repr

/-- A paper record of the Open RAG corpus, with the fields
`process_paper` reads. -/
structure Paper where
  id : String
  title : String
  authors : List String
  categories : List String
  abstract : String
  published : String
  updated : String
  sections : List Section
deriving DecidableEq, Repr

/-- The base metadata dict built at the top of `process_paper`. -/
def baseMetadata (p : Paper) : PyDict :=
  [("paper_id", .vstr p.id),
   ("title", .vstr p.title),
   ("authors", .vstr (pyJoin ", " p.authors)),
   ("categories", .vstr (pyJoin ", " p.categories)),
   ("abstract", .vstr p.abstract),
   ("published", .vstr p.published),
   ("updated", .vstr p.updated)]

/-- `DocumentProcessor._process_text_section`: return nothing for
whitespace-only text, otherwise one `Document` per chunk of the splitter,
with the text-chunk metadata attached. -/
def process_text_section (cs co : Nat) (text : String) (metadata : PyDict)
    (sectionIdx : Nat) : List Document :=
  if pyStrip text = "" then []
  else
    (split_text cs co text).enum.map fun p =>
      { page_content := p.2
        metadata := dictUpdate metadata
          [("content_type", .vstr "text"),
           ("chunk_id", .vstr (fstrOf metadata "paper_id" ++ "_section_" ++
             toString sectionIdx ++ "_chunk_" ++ toString p.1)),
           ("chunk_index", .vint p.1)] }

/-- The single `Document` built for a table inside `_process_tables`:
descriptive label `Таблица {table_id}:` followed by the table content. -/
def tableDoc (metadata : PyDict) (sectionIdx : Nat) (t : String × String) :
    Document :=
  { page_content := "Таблица " ++ t.1 ++ ":\n" ++ t.2
    metadata := dictUpdate metadata
      [("content_type", .vstr "table"),
       ("table_id", .vstr t.1),
       ("chunk_id", .vstr (fstrOf metadata "paper_id" ++
         "_section_" ++ toString sectionIdx ++ "_table_" ++ t.1))] }

/-- `DocumentProcessor._process_tables`: one pseudo-chunk per table whose
content is not whitespace-only, with a descriptive label prefixed. -/
def process_tables (tables : List (String × String)) (metadata : PyDict)
    (sectionIdx : Nat) : List Document :=
  tables.foldl
    (fun documents t =>
      if pyStrip t.2 = "" then documents
      else documents ++ [tableDoc metadata sectionIdx t])
    []

/-- The single `Document` built for an image inside `_process_images`: the
page content is a fixed descriptive placeholder and the base64 payload
goes into the metadata instead. -/
def imageDoc (metadata : PyDict) (sectionIdx : Nat) (t : String × String) :
    Document :=
  { page_content := "Изображение " ++ t.1 ++
      ": [Изображение в формате base64]"
    metadata := dictUpdate metadata
      [("content_type", .vstr "image"),
       ("image_id", .vstr t.1),
       ("chunk_id", .vstr (fstrOf metadata "paper_id" ++
         "_section_" ++ toString sectionIdx ++ "_image_" ++ t.1)),
       ("image_base64", .vstr t.2)] }

/-- `DocumentProcessor._process_images`: one pseudo-chunk per image whose
content is not whitespace-only. -/
def process_images (images : List (String × String)) (metadata : PyDict)
    (sectionIdx : Nat) : List Document :=
  images.foldl
    (fun documents t =>
      if pyStrip t.2 = "" then documents
      else documents ++ [imageDoc metadata sectionIdx t])
    []

/-- The per-section body of the loop in `process_paper`; the guards are the
Python truthiness checks on `section["text"]`, `section["tables"]` and
`section["images"]`. -/
def sectionDocs (cs co : Nat) (p : Paper) (sectionIdx : Nat) (s : Section) :
    List Document :=
  let smd := dictSet (baseMetadata p) "section_id" (.vint sectionIdx)
  (if s.text ≠ "" then process_text_section cs co s.text smd sectionIdx
   else [])
    ++ (if s.tables ≠ [] then process_tables s.tables smd sectionIdx else [])
    ++ (if s.images ≠ [] then process_images s.images smd sectionIdx else [])

/-- `DocumentProcessor.process_paper`: iterate the sections, extending the
document list with the text chunks, table chunks and image chunks of each
section in order. -/
def process_paper (cs co : Nat) (p : Paper) : List Document :=
  (p.sections.enum).foldl
    (fun documents si => documents ++ sectionDocs cs co p si.1 si.2) []

/-!
Embedding of `vector_store.py`.  The ChromaDB collection is modelled as a
list of entries in insertion order.  `collection.add` follows ChromaDB's
semantics: ids must be strings and unique within one request
(`DuplicateIDError` otherwise), and an id already present in the collection
is skipped with a warning rather than overwritten or rejected.
`collection.query` returns the matching entries of the equality
`where`-filter; the nearest-neighbour ranking and the float distances are
abstracted as the stored order (no claim depends on them).
-/

/-- One stored (id, document, metadata) triple of the collection. -/
structure Entry where
  id : String
  text : String
  md : PyDict
deriving DecidableEq, Repr

/-- The collection already holds an entry with this id. -/
def hasId (st : List Entry) (i : String) : Bool :=
  st.any (fun x => x.id == i)

/-- ChromaDB insert of a single record: an existing id is skipped
(the client logs `Insert of existing embedding ID`), a new id is appended. -/
def insertNew (st : List Entry) (e : Entry) : List Entry :=
  if hasId st e.id then st else st ++ [e]

/-- The id values `add_documents` builds: `metadata.get("chunk_id", ...)`
with the positional fallback `chunk_{len(ids)}`. -/
def computeIds (docs : List Document) : List PyVal :=
  docs.enum.map fun p =>
    match dictGet p.2.metadata "chunk_id" with
    | some v => v
    | none => .vstr ("chunk_" ++ toString p.1)

/-- The metadata-cleaning loop of `add_documents`: keep primitive values,
replace anything else by its `str()` rendering. -/
def cleanMetadata (md : PyDict) : PyDict :=
  md.map fun kv => if kv.2.isPrimitive then kv else (kv.1, .vstr kv.2.pyStr)

/-- Read a validated string id. -/
def PyVal.asStr : PyVal → String
  | .vstr s => s
  | _ => ""

/-- Zip the parallel id/document/metadata lists into entries (the three
lists that `add_documents` passes always have equal length). -/
def zipEntries : List PyVal → List String → List PyDict → List Entry
  | v :: vs, t :: ts, m :: ms => ⟨v.asStr, t, m⟩ :: zipEntries vs ts ms
  | _, _, _ => []

/-- ChromaDB `collection.add`: validate the ids (strings, unique within the
request), then insert the records one by one, skipping existing ids. -/
def chromaAdd (st : List Entry) (ids : List PyVal) (texts : List String)
    (mds : List PyDict) : Except String (List Entry) :=
  if ids.any (fun v => !v.isPrimitive || (match v with
      | .vstr _ => false
      | _ => true)) then
    .error "ValueError: Expected IDs to be strings"
  else if ¬ (ids.map PyVal.asStr).Nodup then
    .error "DuplicateIDError: Expected IDs to be unique"
  else
    .ok ((zipEntries ids texts mds).foldl insertNew st)

namespace VectorStore

/-- `VectorStore.add_documents`: an empty list only logs a warning; any
exception of `collection.add` is re-raised after logging. -/
def add_documents (st : List Entry) (docs : List Document) :
    Except String (List Entry) :=
  if docs = [] then .ok st
  else
    chromaAdd st (computeIds docs) (docs.map (·.page_content))
      (docs.map (fun d => cleanMetadata d.metadata))

end VectorStore

/-- The single-query slice of a ChromaDB query result
(`results["..."][0]` in the Python code). -/
structure QueryResult where
  ids : List String
  documents : List String
  metadatas : List PyDict
deriving DecidableEq, Repr

/-- One element of the list `VectorStore.search` returns (the float
`distance` field is not modelled; no claim reads it). -/
structure SearchResult where
  content : String
  metadata : PyDict
  id : String
deriving DecidableEq, Repr

namespace VectorStore

/-- `VectorStore.search`: run the underlying collection query and reshape
the parallel result lists; any exception is caught, logged, and turned into
the empty list.  The fallible query is a parameter so that both the normal
and the raising behaviour of the external client are covered. -/
def search (queryFn : String → Nat → Option PyDict → Except String QueryResult)
    (query : String) (nResults : Nat) (w : Option PyDict) :
    List SearchResult :=
  match queryFn query nResults w with
  | .error _ => []
  | .ok res =>
    res.documents.enum.map fun p =>
      { content := p.2
        metadata := res.metadatas.getD p.1 []
        id := res.ids.getD p.1 "" }

end VectorStore

/-- The ChromaDB equality `where`-filter: every listed field must be equal
in the entry's metadata. -/
def matchesWhere (w : PyDict) (md : PyDict) : Bool :=
  w.all fun kv => dictGet md kv.1 == some kv.2

/-- The entries a collection query considers, in stored order. -/
def topOf (st : List Entry) (n : Nat) (w : Option PyDict) : List Entry :=
  (match w with
   | none => st
   | some wd => st.filter (fun e => matchesWhere wd e.md)).take n

/-- ChromaDB `collection.query` over the modelled store: filter by the
optional `where` clause and return up to `n` results as parallel lists. -/
def chromaQuery (st : List Entry) (_query : String) (n : Nat)
    (w : Option PyDict) : Except String QueryResult :=
  let top := topOf st n w
  .ok { ids := top.map (·.id)
        documents := top.map (·.text)
        metadatas := top.map (·.md) }

namespace RAGSystem

/-- `RAGSystem.search_documents`: `n_results or TOP_K_RESULTS` and
`if content_type:` are Python truthiness tests, so `0` and the empty string
fall back to the defaults. -/
def search_documents (st : List Entry) (query : String)
    (nResults : Option Nat) (contentType : Option String) :
    List SearchResult :=
  let n := match nResults with
    | none => Config.TOP_K_RESULTS
    | some k => if k = 0 then Config.TOP_K_RESULTS else k
  let whereFilter : Option PyDict := match contentType with
    | none => none
    | some ct =>
      if ct = "" then none else some [("content_type", .vstr ct)]
  VectorStore.search (chromaQuery st) query n whereFilter

end RAGSystem

/-!
Embedding of the answering path of `rag_system.py` and of
`core/config.py` + `core/rag_agent.py`.
-/

namespace RAGSystem

/-- `RAGSystem._format_context`: one labelled block per document
(`enumerate(documents, 1)`), with the chunk content after the
`Содержание:` line; the blocks are joined as in the Python expression
`"\n" + "="*50 + "\n".join(context_parts)` (the `"="*50` binds to the
leading newline, not to the join separator). -/
def format_context (documents : List SearchResult) : String :=
  let context_parts := (List.enumFrom 1 documents).map fun p =>
    let paper_title := match dictGet p.2.metadata "title" with
      | some v => v.pyStr
      | none => "Неизвестная статья"
    let section_id := match dictGet p.2.metadata "section_id" with
      | some v => v.pyStr
      | none => "N/A"
    let content_type := match dictGet p.2.metadata "content_type" with
      | some v => v.pyStr
      | none => "text"
    "[Документ " ++ toString p.1 ++ "]\n" ++
      "Статья: " ++ paper_title ++ "\n" ++
      "Секция: " ++ section_id ++ "\n" ++
      "Тип контента: " ++ content_type ++ "\n" ++
      "Содержание:\n" ++ p.2.content ++ "\n"
  "\n" ++ String.mk (List.replicate 50 '=') ++ pyJoin "\n" context_parts

/-- The fixed template of `_create_prompt_template` with its two slots
filled. -/
def promptFill (context question : String) : String :=
  "Ты - помощник по научным статьям. " ++
    "Используй предоставленный контекст для ответа на вопрос.\n\n" ++
    "Контекст:\n" ++ context ++ "\n\nВопрос: " ++ question ++
    "\n\nИнструкции:\n1. Отвечай на русском языке\n" ++
    "2. Используй только информацию из предоставленного контекста\n" ++
    "3. Если в контексте нет ответа на вопрос, скажи об этом\n" ++
    "4. Структурируй ответ четко и понятно\n" ++
    "5. При необходимости ссылайся на конкретные части контекста\n\n" ++
    "Ответ:"

/-- The result dict of `generate_answer`; keys that a branch does not set
are `none`. -/
structure AnswerResult where
  answer : String
  context : List SearchResult
  query : Option String
  context_length : Option Nat
  error : Option String
deriving DecidableEq, Repr

/-- `RAGSystem.generate_answer`.  The LLM is `none` when no API key is
configured; the langchain chain (prompt | llm | parser) is modelled as the
LLM function applied to the filled template (the chain's
`RunnablePassthrough` plumbing is external library glue), and a successful
call is assumed — a raising chain would take the logged except-branch,
which no claim concerns. -/
def generate_answer (llm : Option (String → String)) (st : List Entry)
    (query : String) (contextDocuments : Option (List SearchResult))
    (nResults : Option Nat) : AnswerResult :=
  match llm with
  | none =>
    { answer := "Языковая модель не настроена. " ++
        "Пожалуйста, настройте OpenAI API ключ."
      context := []
      query := none
      context_length := none
      error := some "LLM not configured" }
  | some llmFn =>
    let docs := match contextDocuments with
      | none => search_documents st query nResults none
      | some ds => ds
    if docs = [] then
      { answer := "Не найдено релевантных документов для ответа " ++
          "на ваш вопрос."
        context := []
        query := none
        context_length := none
        error := some "No relevant documents found" }
    else
      let context := format_context docs
      { answer := llmFn (promptFill context query)
        context := docs
        query := some query
        context_length := some context.length
        error := none }

end RAGSystem

namespace Core

/-- `core/config.py`: the attributes the class actually defines, with the
environment treated as unset, so each attribute takes its literal default
(`os.environ.get(..., default)`). -/
structure Config where
  EMBEDDING_MODEL : String := "text-embedding-ada-002"
  LLM_MODEL : String := "gpt-3.5-turbo"
  OPENAI_API_KEY : Option String := none
  INDEX_PATH : String := "./data/index"
  CORPUS_PATH : String := "./data/corpus"
  TOP_K : Nat := 4
deriving DecidableEq, Repr

/-- Python attribute access on a core `Config` object: only the attributes
defined in `core/config.py` resolve; any other name raises
`AttributeError`. -/
def Config.getattr (c : Config) : String → Except String PyVal
  | "EMBEDDING_MODEL" => .ok (.vstr c.EMBEDDING_MODEL)
  | "LLM_MODEL" => .ok (.vstr c.LLM_MODEL)
  | "OPENAI_API_KEY" =>
    .ok (match c.OPENAI_API_KEY with
      | some s => .vstr s
      | none => .vnone)
  | "INDEX_PATH" => .ok (.vstr c.INDEX_PATH)
  | "CORPUS_PATH" => .ok (.vstr c.CORPUS_PATH)
  | "TOP_K" => .ok (.vint c.TOP_K)
  | a => .error ("AttributeError: Config has no attribute " ++ a)

/-- The BGE reranking postprocessor, reduced to the only datum the agent
passes it. -/
structure BgeRerank where
  top_n : Int
deriving DecidableEq, Repr

/-- `RAGAgent._build_reranker`: read `self.config.RERANKER_TYPE`; on
`"bge"` build the postprocessor with `top_n = self.config.K_RERANK_TOP`,
otherwise fall through to `None`.  Both attribute reads go through
`Config.getattr`, so a missing attribute surfaces as an error value. -/
def build_reranker (c : Config) : Except String (Option BgeRerank) := do
  let rt ← c.getattr "RERANKER_TYPE"
  if rt = .vstr "bge" then
    let k ← c.getattr "K_RERANK_TOP"
    match k with
    | .vint n => pure (some ⟨n⟩)
    | _ => pure (some ⟨0⟩)
  else
    pure none

end Core

/-- `needle` occurs as a contiguous substring of `haystack`. -/
def SubstrOf (needle haystack : String) : Prop :=
  ∃ pre post, haystack = pre ++ needle ++ post

/-- Total length of a list of pieces (the value `total` tracks in
`_merge_splits` when the join separator is empty). -/
def weightN (l : List String) : Nat := (l.map String.length).sum

/-!
General helper lemmas about the loop shapes used above.
-/

theorem foldl_skip_append {α β : Type} (g : α → β) (p : α → Prop)
    [DecidablePred p] (l : List α) (acc : List β) :
    l.foldl (fun ds t => if p t then ds else ds ++ [g t]) acc
      = acc ++ (l.filter (fun t => decide ¬ p t)).map g := by
  induction l generalizing acc with
  | nil => simp
  | cons a l ih =>
    by_cases hp : p a
    · simp [hp, ih]
    · simp [hp, ih, List.append_assoc]

theorem foldl_append_eq_bind {α β : Type} (f : α → List β) (l : List α)
    (init : List β) :
    l.foldl (fun acc x => acc ++ f x) init = init ++ l.flatMap f := by
  induction l generalizing init with
  | nil => simp
  | cons a l ih =>
    simp only [List.foldl_cons, List.flatMap_cons]
    rw [ih (init ++ f a), List.append_assoc]

theorem snd_mem_of_mem_enumFrom {α : Type} :
    ∀ (l : List α) (n : Nat) (x : Nat × α), x ∈ List.enumFrom n l → x.2 ∈ l := by
  intro l
  induction l with
  | nil => intro n x h; cases h
  | cons a l ih =>
    intro n x h
    rcases List.mem_cons.mp h with h1 | h1
    · subst h1; exact List.mem_cons_self _ _
    · exact List.mem_cons_of_mem _ (ih (n + 1) x h1)

/-- C2: for every core `Config` — in particular the default one — the
`_build_reranker` step of `RAGAgent.__init__` raises `AttributeError`,
because `core/config.py` defines no `RERANKER_TYPE` attribute; the claim
that the step is total and returns `None` for a non-`"bge"` configuration
does not hold on the code. -/
theorem Core.build_reranker_attr_missing (c : Core.Config) :
    Core.build_reranker c =
      Except.error "AttributeError: Config has no attribute RERANKER_TYPE" :=
  rfl

/-- C8: `VectorStore.search` catches any exception of the underlying
collection query and returns the empty list instead of propagating it. -/
theorem VectorStore.search_no_raise
    (queryFn : String → Nat → Option PyDict → Except String QueryResult)
    (query : String) (n : Nat) (w : Option PyDict) (e : String)
    (h : queryFn query n w = .error e) :
    VectorStore.search queryFn query n w = [] := by
  unfold VectorStore.search
  rw [h]

theorem VectorStore.search_no_raise_witness :
    VectorStore.search (fun _ _ _ => Except.error "connection refused")
      "q" 5 none = [] :=
  VectorStore.search_no_raise _ "q" 5 none "connection refused" rfl

/-- C7: every table with non-whitespace content yields exactly one
`Document` whose page content is the table id and content behind a
descriptive label, and every image with non-whitespace content yields
exactly one `Document` whose page content is a fixed descriptive
placeholder, the base64 payload going into the metadata instead. -/
theorem tables_images_pseudo_chunks (tables images : List (String × String))
    (md : PyDict) (si : Nat) :
    process_tables tables md si =
      (tables.filter (fun t => decide ¬ (pyStrip t.2 = ""))).map
        (tableDoc md si)
    ∧ process_images images md si =
      (images.filter (fun t => decide ¬ (pyStrip t.2 = ""))).map
        (imageDoc md si)
    ∧ ∀ t : String × String,
        (tableDoc md si t).page_content = "Таблица " ++ t.1 ++ ":\n" ++ t.2
        ∧ (imageDoc md si t).page_content =
            "Изображение " ++ t.1 ++ ": [Изображение в формате base64]"
        ∧ dictGet (imageDoc md si t).metadata "image_base64" =
            some (.vstr t.2) := by
  refine ⟨?_, ?_, ?_⟩
  · unfold process_tables
    rw [foldl_skip_append (tableDoc md si) (fun t => pyStrip t.2 = "")
      tables []]
    rfl
  · unfold process_images
    rw [foldl_skip_append (imageDoc md si) (fun t => pyStrip t.2 = "")
      images []]
    rfl
  · intro t
    refine ⟨rfl, rfl, ?_⟩
    show dictGet (dictUpdate md _) "image_base64" = some (.vstr t.2)
    unfold dictUpdate
    simp only [List.foldl_cons, List.foldl_nil]
    exact dictGet_dictSet_self _ _ _

theorem filter_self_idem {α : Type} (p : α → Bool) (l : List α) :
    (l.filter p).filter p = l.filter p := by
  induction l with
  | nil => rfl
  | cons a l ih =>
    by_cases h : p a
    · simp [List.filter_cons, h, ih]
    · simp [List.filter_cons, h, ih]

theorem enumFrom_map {α β : Type} (f : α → β) :
    ∀ (l : List α) (n : Nat),
      List.enumFrom n (l.map f)
        = (List.enumFrom n l).map (fun p => (p.1, f p.2)) := by
  intro l
  induction l with
  | nil => intro n; rfl
  | cons a l ih =>
    intro n
    simp only [List.map_cons, List.enumFrom_cons, ih]

theorem enum_map {α β : Type} (f : α → β) (l : List α) :
    (l.map f).enum = l.enum.map (fun p => (p.1, f p.2)) :=
  enumFrom_map f l 0

theorem flatMap_map_eq {α β γ : Type} (f : α → β) (g : β → List γ)
    (l : List α) : (l.map f).flatMap g = l.flatMap (fun x => g (f x)) := by
  induction l with
  | nil => rfl
  | cons a l ih => simp only [List.map_cons, List.flatMap_cons, ih]

theorem flatMap_congr_mem {α β : Type} (l : List α) (f g : α → List β)
    (h : ∀ x ∈ l, f x = g x) : l.flatMap f = l.flatMap g := by
  induction l with
  | nil => rfl
  | cons a l ih =>
    simp only [List.flatMap_cons]
    rw [h a (List.mem_cons_self _ _),
      ih (fun x hx => h x (List.mem_cons_of_mem _ hx))]

theorem guarded_process_tables_eq (tables : List (String × String))
    (md : PyDict) (si : Nat) :
    (if tables ≠ [] then process_tables tables md si else [])
      = (tables.filter (fun t => decide ¬ (pyStrip t.2 = ""))).map
          (tableDoc md si) := by
  by_cases h : tables ≠ []
  · rw [if_pos h]
    unfold process_tables
    rw [foldl_skip_append (tableDoc md si) (fun t => pyStrip t.2 = "")
      tables []]
    rfl
  · rw [if_neg h]
    have h0 : tables = [] := not_ne_iff.mp h
    subst h0
    rfl

theorem guarded_process_images_eq (images : List (String × String))
    (md : PyDict) (si : Nat) :
    (if images ≠ [] then process_images images md si else [])
      = (images.filter (fun t => decide ¬ (pyStrip t.2 = ""))).map
          (imageDoc md si) := by
  by_cases h : images ≠ []
  · rw [if_pos h]
    unfold process_images
    rw [foldl_skip_append (imageDoc md si) (fun t => pyStrip t.2 = "")
      images []]
    rfl
  · rw [if_neg h]
    have h0 : images = [] := not_ne_iff.mp h
    subst h0
    rfl

/-- C10: whitespace-only content produces no chunks: a whitespace-only
section text yields no text documents; `_process_tables` and
`_process_images` skip every table or image whose content is
whitespace-only also in mixed sections — any emitted document comes from an
entry with non-whitespace content — and `process_paper` is unchanged when
the whitespace-only tables and images are removed from its sections, so it
emits no `Document` for such entries. -/
theorem whitespace_only_no_chunks :
    (∀ cs co text md si, pyStrip text = "" →
        process_text_section cs co text md si = [])
    ∧ (∀ tables md si d, d ∈ process_tables tables md si →
        ∃ t ∈ tables, pyStrip t.2 ≠ "" ∧ d = tableDoc md si t)
    ∧ (∀ images md si d, d ∈ process_images images md si →
        ∃ t ∈ images, pyStrip t.2 ≠ "" ∧ d = imageDoc md si t)
    ∧ (∀ cs co p,
        process_paper cs co p
          = process_paper cs co
              { p with sections := p.sections.map (fun s =>
                  { s with
                    tables := s.tables.filter
                      (fun t => decide ¬ (pyStrip t.2 = "")),
                    images := s.images.filter
                      (fun t => decide ¬ (pyStrip t.2 = "")) }) }) := by
  refine ⟨?_, ?_, ?_, ?_⟩
  · intro cs co text md si h
    unfold process_text_section
    rw [if_pos h]
  · intro tables md si d hd
    unfold process_tables at hd
    rw [foldl_skip_append (tableDoc md si) (fun t => pyStrip t.2 = "")
      tables [], List.nil_append] at hd
    rcases List.mem_map.mp hd with ⟨t, ht, rfl⟩
    refine ⟨t, List.mem_of_mem_filter ht, ?_, rfl⟩
    have := (List.mem_filter.mp ht).2
    simpa using this
  · intro images md si d hd
    unfold process_images at hd
    rw [foldl_skip_append (imageDoc md si) (fun t => pyStrip t.2 = "")
      images [], List.nil_append] at hd
    rcases List.mem_map.mp hd with ⟨t, ht, rfl⟩
    refine ⟨t, List.mem_of_mem_filter ht, ?_, rfl⟩
    have := (List.mem_filter.mp ht).2
    simpa using this
  · intro cs co p
    unfold process_paper
    rw [foldl_append_eq_bind, foldl_append_eq_bind, List.nil_append,
      List.nil_append]
    have hsec : ({ p with sections := p.sections.map (fun s =>
        ({ s with
          tables := s.tables.filter (fun t => decide ¬ (pyStrip t.2 = "")),
          images := s.images.filter (fun t => decide ¬ (pyStrip t.2 = "")) }
          : Section)) } : Paper).sections
        = p.sections.map (fun s =>
          ({ s with
            tables := s.tables.filter (fun t => decide ¬ (pyStrip t.2 = "")),
            images := s.images.filter (fun t => decide ¬ (pyStrip t.2 = "")) }
            : Section)) := rfl
    rw [hsec, enum_map, flatMap_map_eq]
    apply flatMap_congr_mem
    intro si _hsi
    have hbm : baseMetadata { p with sections := p.sections.map (fun s =>
        ({ s with
          tables := s.tables.filter (fun t => decide ¬ (pyStrip t.2 = "")),
          images := s.images.filter (fun t => decide ¬ (pyStrip t.2 = "")) }
          : Section)) } = baseMetadata p := rfl
    unfold sectionDocs
    dsimp only
    rw [hbm, guarded_process_tables_eq, guarded_process_tables_eq,
      guarded_process_images_eq, guarded_process_images_eq,
      filter_self_idem, filter_self_idem]

theorem whitespace_only_no_chunks_witness :
    process_text_section 1000 200 " \n " [] 0 = []
    ∧ (∃ t ∈ [("t1", " "), ("t2", "v")], pyStrip t.2 ≠ "" ∧
        tableDoc [] 0 ("t2", "v") = tableDoc [] 0 t)
    ∧ (∃ t ∈ [("i1", "\t"), ("i2", "b")], pyStrip t.2 ≠ "" ∧
        imageDoc [] 0 ("i2", "b") = imageDoc [] 0 t) :=
  ⟨whitespace_only_no_chunks.1 1000 200 " \n " [] 0 (by decide),
   whitespace_only_no_chunks.2.1 [("t1", " "), ("t2", "v")] [] 0
     (tableDoc [] 0 ("t2", "v")) (by decide),
   whitespace_only_no_chunks.2.2.1 [("i1", "\t"), ("i2", "b")] [] 0
     (imageDoc [] 0 ("i2", "b")) (by decide)⟩

/-- C9: every metadata dict that `add_documents` passes to the collection
(`cleanMetadata` applied to the document's metadata) holds only primitive
values; a primitive input value is kept as is, anything else is replaced by
its `str()` rendering. -/
theorem add_documents_metadata_primitive (docs : List Document)
    (d : Document) (_hd : d ∈ docs) :
    ∀ kv ∈ cleanMetadata d.metadata,
      kv.2.isPrimitive = true
      ∧ ∃ v₀, (kv.1, v₀) ∈ d.metadata ∧
          ((v₀.isPrimitive = true ∧ kv.2 = v₀) ∨
           (v₀.isPrimitive = false ∧ kv.2 = .vstr v₀.pyStr)) := by
  intro kv hkv
  rcases List.mem_map.mp hkv with ⟨kv₀, hkv₀, hf⟩
  by_cases hp : kv₀.2.isPrimitive = true
  · rw [if_pos hp] at hf
    subst hf
    exact ⟨hp, kv₀.2, by simpa using hkv₀, Or.inl ⟨hp, rfl⟩⟩
  · rw [if_neg hp] at hf
    subst hf
    exact ⟨rfl, kv₀.2, by simpa using hkv₀,
      Or.inr ⟨Bool.of_not_eq_true hp, rfl⟩⟩

theorem add_documents_metadata_primitive_witness :
    (("auth", PyVal.vstr "[A, B]").2.isPrimitive = true
      ∧ ∃ v₀, (("auth", PyVal.vstr "[A, B]").1, v₀) ∈
            [("auth", PyVal.vlist ["A", "B"]), ("n", PyVal.vint 3)] ∧
          ((v₀.isPrimitive = true ∧ ("auth", PyVal.vstr "[A, B]").2 = v₀) ∨
           (v₀.isPrimitive = false ∧
             ("auth", PyVal.vstr "[A, B]").2 = .vstr v₀.pyStr))) :=
  add_documents_metadata_primitive
    [{ page_content := "t",
       metadata := [("auth", PyVal.vlist ["A", "B"]), ("n", PyVal.vint 3)] }]
    { page_content := "t",
      metadata := [("auth", PyVal.vlist ["A", "B"]), ("n", PyVal.vint 3)] }
    (by decide) ("auth", PyVal.vstr "[A, B]") (by decide)

theorem hasKey_of_update_source (base : PyDict) (us : List (String × PyVal))
    (k : String) (h : hasKey base k ∨ ∃ v, (k, v) ∈ us) :
    hasKey (dictUpdate base us) k := by
  rcases h with h | ⟨v, hv⟩
  · exact hasKey_dictUpdate_of base us k h
  · exact hasKey_dictUpdate_mem base us (k, v) hv

/-- C3: every chunk produced by `process_paper`, for all three content
types, carries flat metadata containing at least the keys `paper_id`,
`title`, `authors`, `section_id`, `content_type` and `chunk_id`. -/
theorem process_paper_metadata_keys (cs co : Nat) (p : Paper) (d : Document)
    (hd : d ∈ process_paper cs co p) :
    ∀ k ∈ (["paper_id", "title", "authors", "section_id", "content_type",
        "chunk_id"] : List String),
      hasKey d.metadata k := by
  intro k hk
  unfold process_paper at hd
  rw [foldl_append_eq_bind, List.nil_append] at hd
  rcases List.mem_flatMap.mp hd with ⟨si, _hsi, hdm⟩
  unfold sectionDocs at hdm
  dsimp only at hdm
  set smd := dictSet (baseMetadata p) "section_id" (.vint si.1) with hsmd
  have hsmd_base : ∀ k', hasKey (baseMetadata p) k' → hasKey smd k' :=
    fun k' h => hasKey_dictSet_of _ _ _ _ h
  have hpid : hasKey smd "paper_id" := hsmd_base _ rfl
  have htitle : hasKey smd "title" := hsmd_base _ rfl
  have hauth : hasKey smd "authors" := hsmd_base _ rfl
  have hsec : hasKey smd "section_id" := hasKey_dictSet_self _ _ _
  have hkeys : ∀ us : List (String × PyVal),
      (∃ v, ("content_type", v) ∈ us) → (∃ v, ("chunk_id", v) ∈ us) →
      hasKey (dictUpdate smd us) k := by
    intro us hct hcid
    rcases hct with ⟨vct, hvct⟩
    rcases hcid with ⟨vcid, hvcid⟩
    simp only [List.mem_cons, List.not_mem_nil, or_false] at hk
    rcases hk with h | h | h | h | h | h
    all_goals subst h
    · exact hasKey_of_update_source smd us _ (Or.inl hpid)
    · exact hasKey_of_update_source smd us _ (Or.inl htitle)
    · exact hasKey_of_update_source smd us _ (Or.inl hauth)
    · exact hasKey_of_update_source smd us _ (Or.inl hsec)
    · exact hasKey_of_update_source smd us _ (Or.inr ⟨vct, hvct⟩)
    · exact hasKey_of_update_source smd us _ (Or.inr ⟨vcid, hvcid⟩)
  rcases List.mem_append.mp hdm with hmem | hmem3
  rcases List.mem_append.mp hmem with hmem1 | hmem2
  · -- text chunks
    by_cases he : si.2.text ≠ ""
    · rw [if_pos he] at hmem1
      unfold process_text_section at hmem1
      by_cases hws : pyStrip si.2.text = ""
      · rw [if_pos hws] at hmem1
        cases hmem1
      · rw [if_neg hws] at hmem1
        rcases List.mem_map.mp hmem1 with ⟨pc, _hpc, hdq⟩
        subst hdq
        exact hkeys _ ⟨_, List.mem_cons_self _ _⟩
          ⟨_, List.mem_cons_of_mem _ (List.mem_cons_self _ _)⟩
    · rw [if_neg he] at hmem1
      cases hmem1
  · -- table chunks
    by_cases he : si.2.tables ≠ []
    · rw [if_pos he] at hmem2
      unfold process_tables at hmem2
      rw [foldl_skip_append (tableDoc smd si.1) (fun t => pyStrip t.2 = "")
        si.2.tables [], List.nil_append] at hmem2
      rcases List.mem_map.mp hmem2 with ⟨t, _ht, hdq⟩
      subst hdq
      exact hkeys _ ⟨_, List.mem_cons_self _ _⟩
        ⟨_, List.mem_cons_of_mem _ (List.mem_cons_of_mem _
          (List.mem_cons_self _ _))⟩
    · rw [if_neg he] at hmem2
      cases hmem2
  · -- image chunks
    by_cases he : si.2.images ≠ []
    · rw [if_pos he] at hmem3
      unfold process_images at hmem3
      rw [foldl_skip_append (imageDoc smd si.1) (fun t => pyStrip t.2 = "")
        si.2.images [], List.nil_append] at hmem3
      rcases List.mem_map.mp hmem3 with ⟨t, _ht, hdq⟩
      subst hdq
      exact hkeys _ ⟨_, List.mem_cons_self _ _⟩
        ⟨_, List.mem_cons_of_mem _ (List.mem_cons_of_mem _
          (List.mem_cons_self _ _))⟩
    · rw [if_neg he] at hmem3
      cases hmem3


theorem process_paper_metadata_keys_witness :
    hasKey ((process_paper 1000 200
      { id := "p1", title := "T", authors := ["A"], categories := ["cs"],
        abstract := "ab", published := "2020", updated := "2021",
        sections := [{ text := "hi", tables := [("t1", "v")],
                       images := [("i1", "b64")] }] }).getD 0
        { page_content := "", metadata := [] }).metadata "chunk_id" := by
  have h := process_paper_metadata_keys 1000 200
    { id := "p1", title := "T", authors := ["A"], categories := ["cs"],
      abstract := "ab", published := "2020", updated := "2021",
      sections := [{ text := "hi", tables := [("t1", "v")],
                     images := [("i1", "b64")] }] }
    ((process_paper 1000 200
      { id := "p1", title := "T", authors := ["A"], categories := ["cs"],
        abstract := "ab", published := "2020", updated := "2021",
        sections := [{ text := "hi", tables := [("t1", "v")],
                       images := [("i1", "b64")] }] }).getD 0
      { page_content := "", metadata := [] })
    (by decide)
  exact h "chunk_id" (by decide)

theorem enum_map_reshape (top : List Entry) :
    ((top.map (·.text)).enum).map (fun p =>
      ({ content := p.2, metadata := (top.map (·.md)).getD p.1 [],
         id := (top.map (·.id)).getD p.1 "" } : SearchResult))
    = top.map (fun e =>
        ({ content := e.text, metadata := e.md, id := e.id } : SearchResult)) := by
  apply List.ext_getElem
  · simp
  · intro i h1 h2
    have hi : i < top.length := by simpa using h2
    have henum : i < ((top.map (·.text)).enum).length := by simpa using h1
    simp only [List.getElem_map, List.getElem_enum]
    have hmd : (top.map (·.md)).getD i [] = top[i].md := by
      rw [List.getD_eq_getElem _ _ (by simpa using hi)]
      simp
    have hid : (top.map (·.id)).getD i "" = top[i].id := by
      rw [List.getD_eq_getElem _ _ (by simpa using hi)]
      simp
    rw [hmd, hid]

theorem search_chromaQuery_eq (st : List Entry) (q : String) (n : Nat)
    (w : Option PyDict) :
    VectorStore.search (chromaQuery st) q n w
      = (topOf st n w).map (fun e =>
          ({ content := e.text, metadata := e.md, id := e.id } :
            SearchResult)) := by
  unfold VectorStore.search chromaQuery
  exact enum_map_reshape (topOf st n w)

/-- C5 counterexample: `search_documents` is called with the content type
`""` — a given value — yet no filter is passed (Python truthiness of the
empty string), and the returned result carries content type `"text"`, not
`""`. -/
theorem search_documents_empty_ct_cex :
    RAGSystem.search_documents
      [{ id := "id1", text := "doc1",
         md := [("content_type", .vstr "text")] }] "q" none (some "") =
      [{ content := "doc1", metadata := [("content_type", PyVal.vstr "text")],
         id := "id1" }]
    ∧ dictGet [("content_type", PyVal.vstr "text")] "content_type" ≠
        some (.vstr "") := by
  exact ⟨by decide, by decide⟩

/-- C5 (amended): when a non-empty content type is given,
`search_documents` passes the equality filter on `content_type`
to the vector search, so every returned result carries that
content type; when the content type is absent no filter is passed (the
first `n` stored entries come back unfiltered); an absent `n_results`
defaults to `Config.TOP_K_RESULTS = 5`.  The empty string is treated like
an absent content type by the `if content_type:` truthiness test. -/
theorem search_documents_filter (st : List Entry) (query : String)
    (nRes : Option Nat) (ct : String) (hct : ct ≠ "") :
    (∀ r ∈ RAGSystem.search_documents st query nRes (some ct),
        dictGet r.metadata "content_type" = some (.vstr ct))
    ∧ (∀ n : Nat, n ≠ 0 →
        RAGSystem.search_documents st query (some n) none
          = (st.take n).map (fun e =>
              ({ content := e.text, metadata := e.md, id := e.id } :
                SearchResult)))
    ∧ (∀ ct' : Option String,
        RAGSystem.search_documents st query none ct'
          = RAGSystem.search_documents st query (some Config.TOP_K_RESULTS)
              ct')
    ∧ Config.TOP_K_RESULTS = 5 := by
  refine ⟨?_, ?_, ?_, rfl⟩
  · intro r hr
    unfold RAGSystem.search_documents at hr
    dsimp only at hr
    rw [if_neg hct, search_chromaQuery_eq] at hr
    rcases List.mem_map.mp hr with ⟨e, he, hre⟩
    subst hre
    unfold topOf at he
    have he' := List.mem_of_mem_take he
    have hm := (List.mem_filter.mp he').2
    unfold matchesWhere at hm
    simp only [List.all_cons, List.all_nil, Bool.and_true] at hm
    exact eq_of_beq hm
  · intro n hn
    unfold RAGSystem.search_documents
    dsimp only
    rw [if_neg hn, search_chromaQuery_eq]
    rfl
  · intro ct'
    rfl


theorem search_documents_filter_witness :
    dictGet ({ content := "doc1", metadata := [("content_type", PyVal.vstr "text")], id := "id1" } : SearchResult).metadata "content_type"
      = some (.vstr "text") :=
  (search_documents_filter
    [{ id := "id1", text := "doc1", md := [("content_type", PyVal.vstr "text")] },
     { id := "id2", text := "doc2", md := [("content_type", PyVal.vstr "table")] }]
    "q" none "text" (by decide)).1
    { content := "doc1", metadata := [("content_type", PyVal.vstr "text")], id := "id1" }
    (by decide)

theorem hasId_insertNew_self (st : List Entry) (e : Entry) :
    hasId (insertNew st e) e.id = true := by
  unfold insertNew
  by_cases h : hasId st e.id
  · rw [if_pos h]
    exact h
  · rw [if_neg h]
    unfold hasId
    rw [List.any_append]
    simp

theorem hasId_insertNew_mono (st : List Entry) (e : Entry) (i : String)
    (h : hasId st i = true) : hasId (insertNew st e) i = true := by
  unfold insertNew
  by_cases he : hasId st e.id
  · rw [if_pos he]
    exact h
  · rw [if_neg he]
    unfold hasId at *
    rw [List.any_append, h]
    rfl

theorem hasId_foldl_insertNew_mono (entries : List Entry) (st : List Entry)
    (i : String) (h : hasId st i = true) :
    hasId (entries.foldl insertNew st) i = true := by
  induction entries generalizing st with
  | nil => exact h
  | cons e es ih => exact ih _ (hasId_insertNew_mono st e i h)

theorem hasId_foldl_insertNew_mem (e : Entry) :
    ∀ (entries st : List Entry), e ∈ entries →
      hasId (entries.foldl insertNew st) e.id = true := by
  intro entries
  induction entries with
  | nil => intro st he; cases he
  | cons a es ih =>
    intro st he
    rcases List.mem_cons.mp he with h | h
    · subst h
      exact hasId_foldl_insertNew_mono es _ _ (hasId_insertNew_self st e)
    · exact ih _ h

theorem foldl_insertNew_of_all_present (entries : List Entry)
    (st : List Entry) (h : ∀ e ∈ entries, hasId st e.id = true) :
    entries.foldl insertNew st = st := by
  induction entries with
  | nil => rfl
  | cons a es ih =>
    have ha : insertNew st a = st := by
      unfold insertNew
      rw [if_pos (h a (List.mem_cons_self a es))]
    rw [List.foldl_cons, ha]
    exact ih (fun e he => h e (List.mem_cons_of_mem a he))

theorem hasId_iff_mem_map (st : List Entry) (i : String) :
    hasId st i = true ↔ i ∈ st.map (·.id) := by
  unfold hasId
  rw [List.any_eq_true]
  constructor
  · rintro ⟨e, he, hei⟩
    exact List.mem_map.mpr ⟨e, he, beq_iff_eq.mp hei⟩
  · intro h
    rcases List.mem_map.mp h with ⟨e, he, hei⟩
    exact ⟨e, he, beq_iff_eq.mpr hei⟩

theorem insertNew_nodup (st : List Entry) (e : Entry)
    (h : (st.map (·.id)).Nodup) : ((insertNew st e).map (·.id)).Nodup := by
  unfold insertNew
  by_cases hi : hasId st e.id
  · rw [if_pos hi]
    exact h
  · rw [if_neg hi]
    rw [List.map_append, List.map_singleton, List.nodup_append]
    refine ⟨h, List.nodup_singleton _, ?_⟩
    intro a ha hb
    rcases List.mem_singleton.mp hb with rfl
    exact hi ((hasId_iff_mem_map st e.id).mpr ha)

theorem foldl_insertNew_nodup (entries : List Entry) (st : List Entry)
    (h : (st.map (·.id)).Nodup) :
    ((entries.foldl insertNew st).map (·.id)).Nodup := by
  induction entries generalizing st with
  | nil => exact h
  | cons a es ih => exact ih _ (insertNew_nodup st a h)

/-- C1: re-indexing the same corpus is accepted rather than rejected —
once `add_documents` has stored a non-empty document list, running it a
second time with the same documents succeeds with the collection unchanged
(the backend skips the already-present chunk ids), and id uniqueness of
the collection is preserved, so one entry per id remains. -/
theorem add_documents_idempotent (st st1 : List Entry)
    (docs : List Document) (hne : docs ≠ [])
    (h : VectorStore.add_documents st docs = .ok st1) :
    VectorStore.add_documents st1 docs = .ok st1
    ∧ ((st.map (·.id)).Nodup → (st1.map (·.id)).Nodup) := by
  unfold VectorStore.add_documents at h ⊢
  rw [if_neg hne] at h ⊢
  unfold chromaAdd at h ⊢
  by_cases h1 : (computeIds docs).any (fun v => !v.isPrimitive || (match v with
      | .vstr _ => false
      | _ => true)) = true
  · rw [if_pos h1] at h
    cases h
  · rw [if_neg h1] at h ⊢
    by_cases h2 : ¬ ((computeIds docs).map PyVal.asStr).Nodup
    · rw [if_pos h2] at h
      cases h
    · rw [if_neg h2] at h ⊢
      have hst1 : st1 = (zipEntries (computeIds docs)
          (docs.map (·.page_content))
          (docs.map (fun d => cleanMetadata d.metadata))).foldl insertNew st := by
        cases h
        rfl
      constructor
      · congr 1
        rw [hst1]
        apply foldl_insertNew_of_all_present
        intro e he
        exact hasId_foldl_insertNew_mem e _ st he
      · intro hnd
        rw [hst1]
        exact foldl_insertNew_nodup _ st hnd

theorem add_documents_idempotent_witness :
    VectorStore.add_documents
      [{ id := "c1", text := "t", md := [("chunk_id", PyVal.vstr "c1")] }]
      [{ page_content := "t", metadata := [("chunk_id", PyVal.vstr "c1")] }]
      = .ok [{ id := "c1", text := "t", md := [("chunk_id", PyVal.vstr "c1")] }]
    ∧ ((([] : List Entry).map (·.id)).Nodup →
      (([{ id := "c1", text := "t", md := [("chunk_id", PyVal.vstr "c1")] }] : List Entry).map (·.id)).Nodup) :=
  (add_documents_idempotent []
    [{ id := "c1", text := "t", md := [("chunk_id", PyVal.vstr "c1")] }]
    [{ page_content := "t", metadata := [("chunk_id", PyVal.vstr "c1")] }]
    (by decide) rfl)

theorem substrOf_appendL (x p s : String) (h : SubstrOf x s) :
    SubstrOf x (p ++ s) := by
  rcases h with ⟨pre, post, rfl⟩
  exact ⟨p ++ pre, post, by simp only [String.append_assoc]⟩

theorem substrOf_appendR (x s t : String) (h : SubstrOf x s) :
    SubstrOf x (s ++ t) := by
  rcases h with ⟨pre, post, rfl⟩
  exact ⟨pre, post ++ t, by simp only [String.append_assoc]⟩

theorem substrOf_self_append (p x : String) : SubstrOf x (p ++ x) :=
  ⟨p, "", by simp only [String.append_assoc, String.append_empty]⟩

theorem substrOf_trans (x y z : String) (h1 : SubstrOf x y)
    (h2 : SubstrOf y z) : SubstrOf x z := by
  rcases h1 with ⟨p1, q1, rfl⟩
  rcases h2 with ⟨p2, q2, rfl⟩
  exact ⟨p2 ++ p1, q1 ++ q2, by simp only [String.append_assoc]⟩

theorem pyJoin_substrOf (sep : String) :
    ∀ (l : List String) (a : String), a ∈ l → SubstrOf a (pyJoin sep l) := by
  intro l
  induction l with
  | nil => intro a ha; cases ha
  | cons x rest ih =>
    intro a ha
    cases rest with
    | nil =>
      rcases List.mem_singleton.mp ha with rfl
      exact ⟨"", "", by simp [pyJoin]⟩
    | cons y rest' =>
      rcases List.mem_cons.mp ha with h | h
      · subst h
        exact ⟨"", sep ++ pyJoin sep (y :: rest'), by
          simp [pyJoin, String.append_assoc]⟩
      · exact substrOf_appendL a (x ++ sep) _ (ih a h)

theorem exists_mem_enumFrom {α : Type} (l : List α) (a : α) (ha : a ∈ l) :
    ∀ n, ∃ i, (i, a) ∈ List.enumFrom n l := by
  induction l with
  | nil => cases ha
  | cons x rest ih =>
    intro n
    rcases List.mem_cons.mp ha with h | h
    · subst h
      exact ⟨n, List.mem_cons_self _ _⟩
    · rcases ih h (n + 1) with ⟨i, hi⟩
      exact ⟨i, List.mem_cons_of_mem _ hi⟩

theorem format_context_contains (docs : List SearchResult)
    (d : SearchResult) (hd : d ∈ docs) :
    SubstrOf d.content (RAGSystem.format_context docs) := by
  unfold RAGSystem.format_context
  dsimp only
  apply substrOf_appendL
  rcases exists_mem_enumFrom docs d hd 1 with ⟨i, hi⟩
  apply substrOf_trans d.content _ _ ?_
    (pyJoin_substrOf "\n" _ _ (List.mem_map.mpr ⟨(i, d), hi, rfl⟩))
  exact ⟨_, "\n", rfl⟩

theorem promptFill_contains_context (context question : String) :
    SubstrOf context (RAGSystem.promptFill context question) := by
  unfold RAGSystem.promptFill
  apply substrOf_appendR
  apply substrOf_appendR
  apply substrOf_appendR
  apply substrOf_appendR
  apply substrOf_appendR
  apply substrOf_appendR
  apply substrOf_appendR
  apply substrOf_appendR
  exact substrOf_self_append _ _

/-- C4: when the LLM is configured and retrieval returns a non-empty list,
`generate_answer` returns the model's answer under `answer` and the
retrieved source documents under `context`, and every retrieved chunk's
content appears as a substring of the context block filled into the fixed
prompt template. -/
theorem generate_answer_ok (llmFn : String → String) (st : List Entry)
    (query : String) (nRes : Option Nat)
    (hne : RAGSystem.search_documents st query nRes none ≠ []) :
    (RAGSystem.generate_answer (some llmFn) st query none nRes).answer
      = llmFn (RAGSystem.promptFill
          (RAGSystem.format_context
            (RAGSystem.search_documents st query nRes none)) query)
    ∧ (RAGSystem.generate_answer (some llmFn) st query none nRes).context
      = RAGSystem.search_documents st query nRes none
    ∧ (RAGSystem.generate_answer (some llmFn) st query none nRes).error
      = none
    ∧ ∀ d ∈ RAGSystem.search_documents st query nRes none,
        SubstrOf d.content
          (RAGSystem.format_context
            (RAGSystem.search_documents st query nRes none))
        ∧ SubstrOf d.content
            (RAGSystem.promptFill
              (RAGSystem.format_context
                (RAGSystem.search_documents st query nRes none)) query) := by
  have hga : RAGSystem.generate_answer (some llmFn) st query none nRes
      = { answer := llmFn (RAGSystem.promptFill
            (RAGSystem.format_context
              (RAGSystem.search_documents st query nRes none)) query)
          context := RAGSystem.search_documents st query nRes none
          query := some query
          context_length := some (RAGSystem.format_context
            (RAGSystem.search_documents st query nRes none)).length
          error := none } := by
    unfold RAGSystem.generate_answer
    dsimp only
    rw [if_neg hne]
  refine ⟨by rw [hga], by rw [hga], by rw [hga], ?_⟩
  intro d hd
  refine ⟨format_context_contains _ d hd, ?_⟩
  exact substrOf_trans _ _ _ (format_context_contains _ d hd)
    (promptFill_contains_context _ query)

theorem generate_answer_ok_witness :
    (RAGSystem.generate_answer (some (fun _ => "ok"))
      [{ id := "id1", text := "doc1", md := [("content_type", PyVal.vstr "text")] }]
      "q" none none).error = none :=
  (generate_answer_ok (fun _ => "ok")
    [{ id := "id1", text := "doc1", md := [("content_type", PyVal.vstr "text")] }]
    "q" none (by decide)).2.2.1

theorem weightN_nil : weightN [] = 0 := rfl

theorem weightN_cons (x : String) (l : List String) :
    weightN (x :: l) = x.length + weightN l := by
  simp [weightN]

theorem weightN_append_singleton (l : List String) (x : String) :
    weightN (l ++ [x]) = weightN l + x.length := by
  simp [weightN]

theorem pyStrip_length_le (s : String) : (pyStrip s).length ≤ s.length := by
  unfold pyStrip
  show (((s.toList.dropWhile Char.isWhitespace).reverse.dropWhile
      Char.isWhitespace).reverse).length ≤ s.length
  rw [List.length_reverse]
  calc ((s.toList.dropWhile Char.isWhitespace).reverse.dropWhile
        Char.isWhitespace).length
      ≤ (s.toList.dropWhile Char.isWhitespace).reverse.length :=
        (List.dropWhile_sublist Char.isWhitespace).length_le
    _ = (s.toList.dropWhile Char.isWhitespace).length :=
        List.length_reverse _
    _ ≤ s.toList.length :=
        (List.dropWhile_sublist Char.isWhitespace).length_le
    _ = s.length := rfl

theorem pyJoin_empty_sep_length (l : List String) :
    (pyJoin "" l).length = weightN l := by
  induction l with
  | nil => rfl
  | cons x rest ih =>
    cases rest with
    | nil => simp [pyJoin, weightN]
    | cons y rest' =>
      show ((x ++ "" ++ pyJoin "" (y :: rest')).length) = _
      rw [String.length_append, String.length_append, ih]
      simp only [weightN_cons]
      have h0 : ("" : String).length = 0 := rfl
      omega

theorem joinDocs_empty_sep_bound (curr : List String) (doc : String)
    (h : joinDocs "" curr = some doc) : doc.length ≤ weightN curr := by
  unfold joinDocs at h
  dsimp only at h
  by_cases he : pyStrip (pyJoin "" curr) = ""
  · rw [if_pos he] at h
    cases h
  · rw [if_neg he] at h
    cases h
    calc (pyStrip (pyJoin "" curr)).length
        ≤ (pyJoin "" curr).length := pyStrip_length_le _
      _ = weightN curr := pyJoin_empty_sep_length curr

theorem popWhile_spec (cs co : Nat) (dLen : Int) :
    ∀ (curr : List String) (total : Int),
      total = (weightN curr : Int) →
      (popWhile cs co 0 dLen curr total).2
          = (weightN (popWhile cs co 0 dLen curr total).1 : Int)
      ∧ ((popWhile cs co 0 dLen curr total).2 + dLen ≤ (cs : Int)
         ∨ (popWhile cs co 0 dLen curr total).2 = 0) := by
  intro curr
  induction curr with
  | nil =>
    intro total ht
    simp only [popWhile]
    rw [ht, weightN_nil]
    exact ⟨rfl, Or.inr rfl⟩
  | cons c rest ih =>
    intro total ht
    rw [weightN_cons] at ht
    by_cases hc : total > (co : Int) ∨
        (total + dLen + (if (c :: rest).length > 0 then (0 : Int) else 0) >
            (cs : Int) ∧ total > 0)
    · simp only [popWhile, if_pos hc]
      apply ih
      simp only [ite_self]
      push_cast at ht ⊢
      omega
    · simp only [popWhile, if_neg hc]
      refine ⟨by rw [ht, weightN_cons], ?_⟩
      simp only [ite_self] at hc
      have h0 : (0 : Int) ≤ total := by
        rw [ht]
        positivity
      rw [ht] at hc ⊢
      push_cast at hc ⊢
      omega

theorem join_docs_append_bound (cs : Nat) (curr docs : List String)
    (total : Int) (hd : ∀ x ∈ docs, x.length ≤ cs)
    (ht : total = (weightN curr : Int)) (hcs : total ≤ (cs : Int)) :
    ∀ x ∈ docs ++ (joinDocs "" curr).toList, x.length ≤ cs := by
  intro x hx
  rcases List.mem_append.mp hx with h | h
  · exact hd x h
  · have hj : joinDocs "" curr = some x := by
      cases ho : joinDocs "" curr with
      | none => rw [ho] at h; cases h
      | some y =>
        rw [ho] at h
        rcases List.mem_singleton.mp h with rfl
        rfl
    have hb := joinDocs_empty_sep_bound curr x hj
    rw [ht] at hcs
    exact_mod_cast le_trans (Nat.cast_le.mpr hb) hcs

theorem mergeLoop_bound (cs co : Nat) :
    ∀ (splits curr docs : List String) (total : Int),
      (∀ s ∈ splits, s.length < cs) →
      (∀ x ∈ docs, x.length ≤ cs) →
      total = (weightN curr : Int) →
      total ≤ (cs : Int) →
      ∀ x ∈ mergeLoop cs co "" splits curr total docs, x.length ≤ cs := by
  intro splits
  induction splits with
  | nil =>
    intro curr docs total _hs hd ht hcs x hx
    simp only [mergeLoop] at hx
    exact join_docs_append_bound cs curr docs total hd ht hcs x hx
  | cons d ds ih =>
    intro curr docs total hs hd ht hcs x hx
    have hdlen : d.length < cs := hs d (List.mem_cons_self _ _)
    have hs' : ∀ s ∈ ds, s.length < cs :=
      fun s h => hs s (List.mem_cons_of_mem _ h)
    have hsl : ((("" : String).length : Nat) : Int) = 0 := rfl
    simp only [mergeLoop] at hx
    simp only [hsl, ite_self, add_zero] at hx
    by_cases h1 : total + (d.length : Int) > (cs : Int)
    · rw [if_pos h1] at hx
      by_cases h2 : curr.length > 0
      · rw [if_pos h2] at hx
        obtain ⟨hpw1, hpw2⟩ := popWhile_spec cs co (d.length : Int) curr total ht
        refine ih _ _ _ hs'
          (join_docs_append_bound cs curr docs total hd ht hcs) ?_ ?_ x hx
        · rw [weightN_append_singleton, hpw1]
          push_cast
          ring
        · rcases hpw2 with h | h
          · exact h
          · rw [h]
            have hd' : (d.length : Int) ≤ (cs : Int) :=
              Nat.cast_le.mpr (Nat.le_of_lt hdlen)
            omega
      · rw [if_neg h2] at hx
        exfalso
        have hc0 : curr = [] :=
          List.length_eq_zero.mp (Nat.eq_zero_of_not_pos h2)
        rw [hc0, weightN_nil] at ht
        rw [ht] at h1
        have := hdlen
        push_cast at h1
        omega
    · rw [if_neg h1] at hx
      refine ih _ _ _ hs' hd ?_ (le_of_not_lt h1) x hx
      rw [weightN_append_singleton, ht]
      push_cast
      ring

theorem mergeSplits_bound (cs co : Nat) (good : List String)
    (hg : ∀ g ∈ good, g.length < cs) :
    ∀ x ∈ mergeSplits cs co "" good, x.length ≤ cs := by
  unfold mergeSplits
  exact mergeLoop_bound cs co good [] [] 0 hg (by intro x hx; cases hx)
    (by rw [weightN_nil]; rfl) (by positivity)

theorem goSplits_bound (cs co : Nat) (handleBad : String → List String) :
    ∀ (splits good : List String),
      (∀ s ∈ splits, ¬ s.length < cs → ∀ x ∈ handleBad s, x.length ≤ cs) →
      (∀ g ∈ good, g.length < cs) →
      ∀ x ∈ goSplits cs co handleBad splits good, x.length ≤ cs := by
  intro splits
  induction splits with
  | nil =>
    intro good _hb hg x hx
    simp only [goSplits] at hx
    by_cases he : good.isEmpty
    · rw [if_pos he] at hx
      cases hx
    · rw [if_neg he] at hx
      exact mergeSplits_bound cs co good hg x hx
  | cons s ss ih =>
    intro good hb hg x hx
    have hb' : ∀ t ∈ ss, ¬ t.length < cs → ∀ x ∈ handleBad t, x.length ≤ cs :=
      fun t ht => hb t (List.mem_cons_of_mem _ ht)
    simp only [goSplits] at hx
    by_cases hlen : s.length < cs
    · rw [if_pos hlen] at hx
      refine ih (good ++ [s]) hb' ?_ x hx
      intro g hg'
      rcases List.mem_append.mp hg' with h | h
      · exact hg g h
      · rcases List.mem_singleton.mp h with rfl
        exact hlen
    · rw [if_neg hlen] at hx
      rcases List.mem_append.mp hx with hx1 | hx2
      · rcases List.mem_append.mp hx1 with hx3 | hx4
        · by_cases he : good.isEmpty
          · rw [if_pos he] at hx3
            cases hx3
          · rw [if_neg he] at hx3
            exact mergeSplits_bound cs co good hg x hx3
        · exact hb s (List.mem_cons_self _ _) hlen x hx4
      · exact ih [] hb' (by intro g hg'; cases hg') x hx2

theorem selectSepGo_spec (text deflt : String) :
    ∀ (seps : List String), "" ∈ seps →
      (selectSepGo text deflt seps = ("", [])
       ∨ ((selectSepGo text deflt seps).1 ≠ ""
          ∧ "" ∈ (selectSepGo text deflt seps).2)) := by
  intro seps
  induction seps with
  | nil => intro h; cases h
  | cons s rest ih =>
    intro h
    by_cases hs : s = ""
    · left
      simp only [selectSepGo, if_pos hs]
    · have hrest : "" ∈ rest :=
        (List.mem_cons.mp h).resolve_left (fun he => hs he.symm)
      by_cases ho : occursIn s text
      · right
        simp only [selectSepGo, if_neg hs, if_pos ho]
        exact ⟨hs, hrest⟩
      · simp only [selectSepGo, if_neg hs, if_neg ho]
        exact ih hrest

theorem selectSep_spec (text : String) (seps : List String)
    (h : "" ∈ seps) :
    selectSep text seps = ("", [])
    ∨ ((selectSep text seps).1 ≠ "" ∧ "" ∈ (selectSep text seps).2) :=
  selectSepGo_spec text (seps.getLastD "") seps h

theorem splitWithKeepSep_empty_sep (text : String) :
    ∀ x ∈ splitWithKeepSep "" text, x.length = 1 := by
  intro x hx
  unfold splitWithKeepSep at hx
  rw [if_pos rfl] at hx
  have hx' := List.mem_of_mem_filter hx
  rcases List.mem_map.mp hx' with ⟨c, _hc, rfl⟩
  rfl

theorem splitTextAux_bound (cs co : Nat) (hcs : 1 ≤ cs) :
    ∀ (fuel : Nat) (text : String) (seps : List String), "" ∈ seps →
      ∀ x ∈ splitTextAux cs co fuel text seps, x.length ≤ cs := by
  intro fuel
  induction fuel with
  | zero =>
    intro text seps _hsep x hx
    simp only [splitTextAux] at hx
    cases hx
  | succ n ih =>
    intro text seps hsep x hx
    simp only [splitTextAux] at hx
    rcases selectSep_spec text seps hsep with hA | ⟨hB1, hB2⟩
    · rw [hA] at hx
      refine goSplits_bound cs co _ _ [] ?_ (by intro g hg; cases hg) x hx
      intro s hs _hns y hy
      simp only [List.isEmpty_nil, if_pos] at hy
      have hy' := List.mem_singleton.mp hy
      rw [hy', splitWithKeepSep_empty_sep text s hs]
      exact hcs
    · have hne : (selectSep text seps).2 ≠ [] := by
        intro h
        rw [h] at hB2
        cases hB2
      refine goSplits_bound cs co _ _ [] ?_ (by intro g hg; cases hg) x hx
      intro s _hs _hns y hy
      rw [if_neg (by simpa [List.isEmpty_iff] using hne)] at hy
      exact ih s (selectSep text seps).2 hB2 y hy

theorem split_text_bound (cs co : Nat) (hcs : 1 ≤ cs) (text : String) :
    ∀ x ∈ split_text cs co text, x.length ≤ cs := by
  unfold split_text
  exact splitTextAux_bound cs co hcs defaultSeparators.length text
    defaultSeparators (by decide)

/-- C6: the `DocumentProcessor` constructor defaults and the
`Config.CHUNK_SIZE` / `Config.CHUNK_OVERLAP` constants are 1000 and 200,
and with those parameters every chunk `_process_text_section` produces has
length at most 1000. -/
theorem chunking_fixed_windows :
    ({} : DocumentProcessor).chunk_size = 1000
    ∧ ({} : DocumentProcessor).chunk_overlap = 200
    ∧ Config.CHUNK_SIZE = 1000
    ∧ Config.CHUNK_OVERLAP = 200
    ∧ ∀ (text : String) (md : PyDict) (si : Nat) (d : Document),
        d ∈ process_text_section 1000 200 text md si →
        d.page_content.length ≤ 1000 := by
  refine ⟨rfl, rfl, rfl, rfl, ?_⟩
  intro text md si d hd
  unfold process_text_section at hd
  by_cases hws : pyStrip text = ""
  · rw [if_pos hws] at hd
    cases hd
  · rw [if_neg hws] at hd
    rcases List.mem_map.mp hd with ⟨p, hp, rfl⟩
    exact split_text_bound 1000 200 (by omega) text p.2
      (snd_mem_of_mem_enumFrom _ 0 p hp)

theorem chunking_fixed_windows_witness :
    ((process_text_section 1000 200 "hi" [("paper_id", PyVal.vstr "p")]
        0).getD 0 { page_content := "", metadata := [] }).page_content.length
      ≤ 1000 :=
  chunking_fixed_windows.2.2.2.2 "hi" [("paper_id", PyVal.vstr "p")] 0
    ((process_text_section 1000 200 "hi" [("paper_id", PyVal.vstr "p")]
        0).getD 0 { page_content := "", metadata := [] })
    (by decide)
